import Mathlib

/- Shallow embedding of src/cli/buffer.c (struct buf and its operations).

   Modeling conventions:
   * `char *data` is a list of byte values; C's NULL pointer is modeled as the
     empty list (none of the code paths considered distinguish a NULL pointer
     from a pointer to a zero-byte region).
   * size_t values are Nat; the C `int` accumulator of buftoi is an Int wrapped
     to 32-bit two's complement at each arithmetic step (toSigned32), since the
     spec describes native wrapping arithmetic there.
   * malloc/realloc success is an explicit Boolean oracle argument, one per
     allocation site in the function (true = that allocation succeeds); the
     byte string a printf-style format produces is likewise an explicit
     oracle argument (vsnprintfM), fixed across repeated formatting of the
     same argument list.
   * memcpy/memmove are `memwrite`; bytes a realloc adds beyond the preserved
     region are uninitialized in C and modeled as 0 (no proved claim depends on
     their value).
   * A nullable `struct buf *` argument is an `Option Buf`; functions that
     only make sense on a non-null buffer (bufgrow) take a bare `Buf`.
   * buftoi and bufdup are instrumented: buftoi additionally returns the list
     of indices at which it reads `data`, bufdup additionally returns the list
     of divisors of the divisions it executes.  The extra component is a pure
     trace; the first component is the translation of the C function. -/

/-- struct buf from buffer.h: data, size, asize (allocated size, 0 = volatile),
unit (reallocation unit, 0 = read-only), ref (reference count). -/
structure Buf where
  data : List Nat
  size : Nat
  asize : Nat
  unit : Nat
  ref : Int
deriving DecidableEq, Repr

/-- memcpy/memmove into `data` at offset `off`, writing the bytes `src`. -/
def memwrite (data : List Nat) (off : Nat) (src : List Nat) : List Nat :=
  data.take off ++ src ++ data.drop (off + src.length)

/-- strlen over a byte list: number of bytes before the first NUL. -/
def strlenL (s : List Nat) : Nat := (s.takeWhile (fun c => c ≠ 0)).length

/-- The embedded indexing `data[i]`: reads the byte at index `i`, with 0 as
the (never legitimately reachable) out-of-range default. -/
def readByte (data : List Nat) (i : Nat) : Nat := data.getD i 0

/-- The loop `while (neoasz < neosz) neoasz += buf->unit;` from bufgrow,
starting at `cur`.  The inner `unit = 0` branch is only a termination guard:
bufgrow never calls growTo with a zero unit. -/
def growTo (unit neosz cur : Nat) : Nat :=
  if cur < neosz then
    if unit = 0 then cur
    else growTo unit neosz (cur + unit)
  else cur
termination_by neosz - cur
decreasing_by omega

/-- bufgrow from buffer.c: returns (C return value as a Bool, resulting buffer).
`aOk` is the allocation oracle for the single realloc site. -/
def bufgrow (aOk : Bool) (b : Buf) (neosz : Nat) : Bool × Buf :=
  if b.unit = 0 then (false, b)
  else if neosz ≤ b.asize then (true, b)
  else
    let neoasz := growTo b.unit neosz (b.asize + b.unit)
    if aOk then
      (true, { b with asize := neoasz,
                      data := b.data ++ List.replicate (neoasz - b.data.length) 0 })
    else (false, b)

/-- bufput from buffer.c: append `len` bytes of `d` to the buffer. -/
def bufput (aOk : Bool) (buf : Option Buf) (d : List Nat) (len : Nat) : Option Buf :=
  match buf with
  | none => none
  | some b =>
    let g := bufgrow aOk b (b.size + len)
    if g.1 = false then some g.2
    else some { g.2 with data := memwrite g.2.data g.2.size (d.take len),
                         size := g.2.size + len }

/-- bufrelease from buffer.c: the post-state of the released buffer
(none = the buffer was freed). -/
def bufrelease (buf : Option Buf) : Option Buf :=
  match buf with
  | none => none
  | some b =>
    if b.unit = 0 then some b
    else if b.ref - 1 = 0 then none
    else some { b with ref := b.ref - 1 }

/-- bufdup from buffer.c, instrumented: first component is the duplicated
buffer (none on failure), second component is the list of divisors of the
divisions the run executes.  `a1` is the oracle for the malloc of the struct,
`a2` for the malloc of the data area. -/
def bufdup (a1 a2 : Bool) (src : Option Buf) (dupunit : Nat) :
    Option Buf × List Nat :=
  match src with
  | none => (none, [])
  | some s =>
    if a1 = false then (none, [])
    else if s.size = 0 then (some ⟨[], 0, 0, dupunit, 1⟩, [])
    else
      let blocks := (s.size + dupunit - 1) / dupunit
      let asize := blocks * dupunit
      if a2 = false then (none, [dupunit])
      else (some ⟨s.data.take s.size ++ List.replicate (asize - s.size) 0,
                  s.size, asize, dupunit, 1⟩, [dupunit])

/-- bufset from buffer.c: returns (the new value of *dest, the post-state of
the buffer previously held in *dest after its bufrelease).  The oracles are
passed to the bufdup call of the volatile case. -/
def bufset (a1 a2 : Bool) (dest src : Option Buf) : Option Buf × Option Buf :=
  let src2 : Option Buf :=
    match src with
    | none => none
    | some s =>
      if s.data ≠ [] ∧ s.asize = 0 then (bufdup a1 a2 (some s) 1).1
      else some { s with ref := s.ref + 1 }
  (src2, bufrelease dest)

/-- bufslurp from buffer.c: remove `len` bytes from the head of the buffer. -/
def bufslurp (buf : Option Buf) (len : Nat) : Option Buf :=
  match buf with
  | none => none
  | some b =>
    if b.unit = 0 ∨ len = 0 then some b
    else if b.size ≤ len then some { b with size := 0 }
    else some { b with size := b.size - len,
                       data := memwrite b.data 0
                         ((b.data.drop len).take (b.size - len)) }

/-- 32-bit two's-complement wrap of an integer (2^31 = 2147483648,
2^32 = 4294967296). -/
def toSigned32 (n : Int) : Int := (n + 2147483648) % 4294967296 - 2147483648

/-- The digit loop of buftoi, instrumented: returns ((accumulator, final index),
list of indices at which `data` was read).  The loop guard reads `data` only
after checking `i < size`, exactly as the C short-circuit does. -/
def buftoiLoop (data : List Nat) (size i : Nat) (r : Int) :
    (Int × Nat) × List Nat :=
  if h : i < size then
    if 48 ≤ readByte data i ∧ readByte data i ≤ 57 then
      let q := buftoiLoop data size (i + 1)
                 (toSigned32 (r * 10 + ((readByte data i : Int) - 48)))
      (q.1, i :: q.2)
    else ((r, i), [i])
  else ((r, i), [])
termination_by size - i

/-- buftoi from buffer.c, instrumented: first component is (return value,
value written through offset_o if any), second component is the list of indices
at which the run reads `data`.  The sign test reads data[offset_i]
unconditionally once the buffer is non-null and non-empty. -/
def buftoi (buf : Option Buf) (offI : Nat) : (Int × Option Nat) × List Nat :=
  match buf with
  | none => ((0, none), [])
  | some b =>
    if b.size = 0 then ((0, none), [])
    else
      let c := readByte b.data offI
      let neg := c = 45
      let i0 := if c = 43 then offI + 1 else if c = 45 then offI + 1 else offI
      let q := buftoiLoop b.data b.size i0 0
      ((if neg then toSigned32 (-q.1.1) else q.1.1, some q.1.2), offI :: q.2)

/-- strncmp over byte lists: compare at most `n` bytes, stopping at the first
difference or at a NUL on both sides.  Reading past the end of a list yields 0
(the reads the claims exercise stay inside the lists). -/
def strncmpL : List Nat → List Nat → Nat → Int
  | _, _, 0 => 0
  | xs, ys, n + 1 =>
    if xs.headD 0 ≠ ys.headD 0 then (xs.headD 0 : Int) - (ys.headD 0 : Int)
    else if xs.headD 0 = 0 then 0
    else strncmpL xs.tail ys.tail n

/-- The return cascade at the end of bufcmps: `if (r) return r; else if
(a->size == len) return 0; else if (a->size < len) return -1; else return 1;`. -/
def postCmp (size len : Nat) (r : Int) : Int :=
  if r ≠ 0 then r
  else if size = len then 0
  else if size < len then -1
  else 1

/-- bufcmps from buffer.c.  The C string argument is its byte contents before
the terminating NUL; since the code evaluates strlen(b) before anything else,
a null string argument is unrepresentable (it would be undefined behavior),
so the `b ? 0 : -1` of the empty-buffer branch is the constant 0 here. -/
def bufcmps (a : Option Buf) (s : List Nat) : Int :=
  let len := strlenL s
  match a with
  | none => 0
  | some ab =>
    if ab.size = 0 then 0
    else
      let cmplen := if len < ab.size then ab.size else len
      postCmp ab.size len (strncmpL ab.data (s ++ [0]) cmplen)

/-- The step `r = (r * 10) + buf->data[i] - '0'` of buftoi, without the wrap. -/
def accDigit (a : Int) (c : Nat) : Int := a * 10 + ((c : Int) - 48)

/-- The maximal run of ASCII digit bytes of `data` starting at index `i`,
read below the bound `size` (the specification-side description of what the
buftoi loop consumes). -/
def runList (data : List Nat) (size i : Nat) : List Nat :=
  if h : i < size then
    if 48 ≤ readByte data i ∧ readByte data i ≤ 57 then
      readByte data i :: runList data size (i + 1)
    else []
  else []
termination_by size - i

/-- The unwrapped decimal value of the maximal digit run starting at `i`. -/
def runVal (data : List Nat) (size i : Nat) : Int :=
  (runList data size i).foldl accDigit 0

/-- Specification-side byte comparison: lexicographic on the shared front part,
then the shorter list is smaller. -/
def cmpBytes : List Nat → List Nat → Int
  | [], [] => 0
  | [], _ :: _ => -1
  | _ :: _, [] => 1
  | x :: xs, y :: ys => if x ≠ y then (x : Int) - (y : Int) else cmpBytes xs ys

/-- A read-only buffer (unit = 0), as produced by CONST_BUF over "a". -/
def roBuf : Buf := ⟨[97, 0], 1, 2, 0, 0⟩

/-- An owned empty buffer with one holder, as produced by bufnew(1). -/
def ownedEmpty : Buf := ⟨[], 0, 0, 1, 1⟩

/-- A volatile buffer wrapping the stack string "abc" (asize = 0, unit = 0),
as produced by VOLATILE_BUF. -/
def volAbc : Buf := ⟨[97, 98, 99], 3, 0, 0, 0⟩

/-- An owned buffer whose logical contents are "ab" (size 2) but whose
allocated area holds "abc\0" (asize 4): the bytes past `size` are stale. -/
def staleC : Buf := ⟨[97, 98, 99, 0], 2, 4, 1, 1⟩

/-- Like staleC (same size, same first `size` bytes) but with a different
stale byte 'z' at index 2. -/
def staleZ : Buf := ⟨[97, 98, 122, 0], 2, 4, 1, 1⟩

/-- An owned buffer holding exactly "abc". -/
def abcBuf : Buf := ⟨[97, 98, 99], 3, 3, 1, 1⟩

/-- An owned buffer holding "-42abc". -/
def buf42 : Buf := ⟨[45, 52, 50, 97, 98, 99], 6, 6, 1, 1⟩

/-- An owned buffer holding the single digit "0". -/
def oneDigit : Buf := ⟨[48], 1, 1, 1, 1⟩

/-- An owned five-byte buffer used as a concrete slurp input. -/
def fiveB : Buf := ⟨[1, 2, 3, 4, 5], 5, 5, 1, 1⟩

/-- Unfolding helper: the bufgrow growth loop never stops below its target
when the unit is nonzero. -/
theorem growTo_ge (unit neosz : Nat) (hu : unit ≠ 0) :
    ∀ k cur, neosz - cur ≤ k → neosz ≤ growTo unit neosz cur := by
  intro k
  induction k with
  | zero =>
    intro cur h
    rw [growTo]
    have hc : ¬ cur < neosz := by omega
    simp [hc]
    omega
  | succ k ih =>
    intro cur h
    by_cases hc : cur < neosz
    · rw [growTo]
      simp [hc, hu]
      exact ih (cur + unit) (by omega)
    · rw [growTo]
      simp [hc]
      omega

/-- Case analysis of bufgrow on a mutable buffer with a consistent data area:
either it fails and returns the buffer unchanged, or it succeeds and the
result has the same size and unit, capacity at least the request, a data area
of exactly the allocated size, and the old bytes as a front segment. -/
theorem bufgrow_cases (aOk : Bool) (b : Buf) (neosz : Nat)
    (hu : b.unit ≠ 0) (hlen : b.data.length = b.asize) :
    bufgrow aOk b neosz = (false, b) ∨
    ∃ b2, bufgrow aOk b neosz = (true, b2) ∧ b2.size = b.size ∧
      b2.unit = b.unit ∧ neosz ≤ b2.asize ∧ b2.data.length = b2.asize ∧
      ∃ pad, b2.data = b.data ++ pad := by
  by_cases h1 : neosz ≤ b.asize
  · right
    exact ⟨b, by simp [bufgrow, hu, h1], rfl, rfl, h1, hlen, [], by simp⟩
  · cases aOk with
    | false =>
      left
      simp [bufgrow, hu, h1]
    | true =>
      right
      have hge : neosz ≤ growTo b.unit neosz (b.asize + b.unit) :=
        growTo_ge b.unit neosz hu (neosz - (b.asize + b.unit)) _ le_rfl
      refine ⟨{ b with asize := growTo b.unit neosz (b.asize + b.unit),
                       data := b.data ++ List.replicate
                         (growTo b.unit neosz (b.asize + b.unit) - b.data.length) 0 },
              by simp [bufgrow, hu, h1], rfl, rfl, hge, ?_, _, rfl⟩
      simp only [List.length_append, List.length_replicate]
      omega

/-- C2, counterexample: grow on a concrete read-only buffer returns failure
(0), not success as the claim states, while leaving the buffer unchanged. -/
theorem bufgrow_readonly_cex :
    (bufgrow true roBuf 5).1 = false ∧ (bufgrow true roBuf 5).2 = roBuf := by
  decide

/-- C2 (amended): for every read-only buffer (growth_unit = 0) and every
target size, grow is a no-op that leaves the buffer unchanged and returns
failure (0); callers must avoid relying on grow for the read-only check. -/
theorem bufgrow_readonly (aOk : Bool) (b : Buf) (n : Nat) (h : b.unit = 0) :
    bufgrow aOk b n = (false, b) := by
  simp [bufgrow, h]

/-- Witness for bufgrow_readonly at a concrete read-only buffer. -/
theorem bufgrow_readonly_witness :
    roBuf.unit = 0 ∧ bufgrow true roBuf 5 = (false, roBuf) :=
  ⟨by decide, bufgrow_readonly true roBuf 5 (by decide)⟩

/-- C4, counterexample: for an empty buffer and the non-null string "a",
compare_to_string returns 0, not a negative result as the claim states. -/
theorem bufcmps_empty_cex :
    bufcmps (some ownedEmpty) [97] = 0 ∧ ¬ bufcmps (some ownedEmpty) [97] < 0 := by
  decide

/-- C4 (amended): for every null or empty (size = 0) buffer and every
non-null string s, compare_to_string returns 0; the -1 branch for a null
string argument is unreachable because strlen(s) is evaluated first. -/
theorem bufcmps_empty (a : Option Buf) (s : List Nat)
    (h : a = none ∨ ∃ b, a = some b ∧ b.size = 0) :
    bufcmps a s = 0 := by
  rcases h with h | ⟨b, rfl, hb⟩
  · subst h
    simp [bufcmps]
  · simp [bufcmps, hb]

/-- Witness for bufcmps_empty at a concrete empty buffer and string "ab". -/
theorem bufcmps_empty_witness :
    (some ownedEmpty = none ∨ ∃ b, some ownedEmpty = some b ∧ b.size = 0) ∧
    bufcmps (some ownedEmpty) [97, 98] = 0 :=
  ⟨Or.inr ⟨ownedEmpty, rfl, by decide⟩,
    bufcmps_empty _ _ (Or.inr ⟨ownedEmpty, rfl, by decide⟩)⟩

/-- C1: for a non-null buffer with positive growth unit, append_bytes either
fails in the growth step leaving the buffer unchanged, or extends the size by
exactly n, keeps the first old size bytes of the contents, and puts d as the
last n bytes of the contents. -/
theorem bufput_append (aOk : Bool) (b : Buf) (d : List Nat) (n : Nat)
    (hu : b.unit ≠ 0) (hlen : b.data.length = b.asize) (hsz : b.size ≤ b.asize)
    (hd : d.length = n) :
    ((bufgrow aOk b (b.size + n)).1 = false ∧ bufput aOk (some b) d n = some b) ∨
    ∃ b2, bufput aOk (some b) d n = some b2 ∧ b2.size = b.size + n ∧
      (b2.data.take b2.size).take b.size = b.data.take b.size ∧
      (b2.data.take b2.size).drop b.size = d := by
  subst hd
  rcases bufgrow_cases aOk b (b.size + d.length) hu hlen with hg |
    ⟨g2, hg, hsz2, hu2, hcap, hlen2, pad, hpad⟩
  · left
    constructor
    · rw [hg]
    · simp [bufput, hg]
  · right
    have hg2len : b.size + d.length ≤ g2.data.length := by omega
    have hA : (g2.data.take b.size).length = b.size := by
      simp [List.length_take]
      omega
    have hmw : memwrite g2.data b.size d =
        g2.data.take b.size ++ (d ++ g2.data.drop (b.size + d.length)) := by
      simp [memwrite]
    have hcont : (memwrite g2.data b.size d).take (b.size + d.length) =
        g2.data.take b.size ++ d := by
      rw [hmw, List.take_append_eq_append_take,
          List.take_of_length_le (by omega : (g2.data.take b.size).length ≤ b.size + d.length),
          hA]
      have h0 : b.size + d.length - b.size = d.length := by omega
      rw [h0, List.take_append_eq_append_take, List.take_length]
      simp
    refine ⟨{ g2 with data := memwrite g2.data g2.size d,
                      size := g2.size + d.length }, ?_, ?_, ?_, ?_⟩
    · simp [bufput, hg, List.take_length]
    · simp [hsz2]
    · show ((memwrite g2.data g2.size d).take (g2.size + d.length)).take b.size =
        b.data.take b.size
      rw [hsz2, hcont, List.take_append_eq_append_take,
          List.take_of_length_le (le_of_eq hA), hA]
      simp only [Nat.sub_self, List.take_zero, List.append_nil]
      rw [hpad, List.take_append_of_le_length (by omega : b.size ≤ b.data.length)]
    · show ((memwrite g2.data g2.size d).take (g2.size + d.length)).drop b.size = d
      rw [hsz2, hcont, List.drop_append_eq_append_drop,
          List.drop_eq_nil_of_le (le_of_eq hA), hA]
      simp

/-- Witness for bufput_append at a concrete fresh buffer and one byte. -/
theorem bufput_append_witness :
    ownedEmpty.unit ≠ 0 ∧ ownedEmpty.data.length = ownedEmpty.asize ∧
    ownedEmpty.size ≤ ownedEmpty.asize ∧ [97].length = 1 ∧
    (((bufgrow true ownedEmpty (ownedEmpty.size + 1)).1 = false ∧
        bufput true (some ownedEmpty) [97] 1 = some ownedEmpty) ∨
      ∃ b2, bufput true (some ownedEmpty) [97] 1 = some b2 ∧
        b2.size = ownedEmpty.size + 1 ∧
        (b2.data.take b2.size).take ownedEmpty.size =
          ownedEmpty.data.take ownedEmpty.size ∧
        (b2.data.take b2.size).drop ownedEmpty.size = [97]) :=
  ⟨by decide, by decide, by decide, by decide,
    bufput_append true ownedEmpty [97] 1 (by decide) (by decide) (by decide)
      (by decide)⟩

/-- C6: assign first converts the new value, duplicating a volatile one into
an owned buffer with growth unit 1, capacity at least its size and the same
bytes, and bumping the reference count otherwise; the buffer previously in the
slot is released. -/
theorem bufset_conversion (dest : Option Buf) (s : Buf) :
    ((s.data ≠ [] ∧ s.asize = 0) →
      (bufset true true dest (some s)).2 = bufrelease dest ∧
      ∃ d2, (bufset true true dest (some s)).1 = some d2 ∧ d2.unit = 1 ∧
        d2.ref = 1 ∧ d2.size = s.size ∧ s.size ≤ d2.asize ∧
        d2.data.take d2.size = s.data.take s.size) ∧
    (¬(s.data ≠ [] ∧ s.asize = 0) →
      bufset true true dest (some s) =
        (some { s with ref := s.ref + 1 }, bufrelease dest)) := by
  constructor
  · intro h
    refine ⟨rfl, ?_⟩
    by_cases h0 : s.size = 0
    · refine ⟨⟨[], 0, 0, 1, 1⟩, ?_, rfl, rfl, ?_, ?_, ?_⟩
      · simp [bufset, h, bufdup, h0]
      · exact h0.symm
      · exact le_of_eq h0
      · simp [h0]
    · refine ⟨⟨s.data.take s.size, s.size, s.size, 1, 1⟩, ?_, rfl, rfl, rfl,
        le_rfl, ?_⟩
      · simp [bufset, h, bufdup, h0]
      · simp [List.take_take]
  · intro h
    simp [bufset, h]

/-- Witness for bufset_conversion at the volatile "abc" wrapper and an
occupied slot (the scenario of the specification). -/
theorem bufset_conversion_witness :
    volAbc.size ≤ volAbc.data.length ∧
    ((volAbc.data ≠ [] ∧ volAbc.asize = 0) →
      (bufset true true (some ownedEmpty) (some volAbc)).2 =
        bufrelease (some ownedEmpty) ∧
      ∃ d2, (bufset true true (some ownedEmpty) (some volAbc)).1 = some d2 ∧
        d2.unit = 1 ∧ d2.ref = 1 ∧ d2.size = volAbc.size ∧
        volAbc.size ≤ d2.asize ∧
        d2.data.take d2.size = volAbc.data.take volAbc.size) :=
  ⟨by decide, fun h => (bufset_conversion (some ownedEmpty) volAbc).1 h⟩

/-- Index bound for the instrumented buftoi loop: every recorded read is
below `size`. -/
theorem buftoiLoop_reads_lt (data : List Nat) (size : Nat) :
    ∀ k i r, size - i ≤ k → ∀ j ∈ (buftoiLoop data size i r).2, j < size := by
  intro k
  induction k with
  | zero =>
    intro i r h j hj
    rw [buftoiLoop] at hj
    have hc : ¬ i < size := by omega
    simp [hc] at hj
  | succ k ih =>
    intro i r h j hj
    rw [buftoiLoop] at hj
    by_cases hc : i < size
    · by_cases hd : 48 ≤ readByte data i ∧ readByte data i ≤ 57
      · simp [hc, hd] at hj
        rcases hj with rfl | hj
        · exact hc
        · exact ih (i + 1) _ (by omega) j hj
      · simp [hc, hd] at hj
        subst hj
        exact hc
    · simp [hc] at hj

/-- C9: buftoi reads data[start_offset] unconditionally on every non-null
non-empty buffer; under start_offset < size every recorded read index is
below size (so the out-of-range default of the embedded indexing is never
taken), while a concrete non-empty buffer with start_offset = 5 >= size
records a read at index 5, past the end. -/
theorem buftoi_reads_spec :
    (∀ (b : Buf) (offI : Nat), b.size ≠ 0 → offI ∈ (buftoi (some b) offI).2) ∧
    (∀ (b : Buf) (offI : Nat), offI < b.size →
      ∀ j ∈ (buftoi (some b) offI).2, j < b.size) ∧
    (oneDigit.size ≤ 5 ∧ ∃ j ∈ (buftoi (some oneDigit) 5).2, oneDigit.size ≤ j) := by
  refine ⟨?_, ?_, by decide⟩
  · intro b offI h
    simp [buftoi, h]
  · intro b offI h j hj
    have h0 : b.size ≠ 0 := by omega
    simp [buftoi, h0] at hj
    rcases hj with rfl | hj
    · exact h
    · exact buftoiLoop_reads_lt b.data b.size b.size _ _ (by omega) j hj

/-- C10: on a non-null non-empty source with nonzero unit, bufdup performs
exactly one division, by the (nonzero) unit, and the new capacity is the least
multiple of the unit covering the source size; a zero-length source performs
no division and yields capacity 0 with null data; and with unit 0 and a
non-empty source the run records a division by zero. -/
theorem bufdup_div_spec :
    (∀ (s : Buf) (u : Nat) (a2 : Bool), u ≠ 0 → 0 < s.size →
      (bufdup true a2 (some s) u).2 = [u] ∧
      (∀ v ∈ (bufdup true a2 (some s) u).2, v ≠ 0) ∧
      ∃ d, (bufdup true true (some s) u).1 = some d ∧ d.asize % u = 0 ∧
        s.size ≤ d.asize ∧ d.asize < s.size + u) ∧
    (∀ (s : Buf) (u : Nat) (a2 : Bool), s.size = 0 →
      (bufdup true a2 (some s) u).2 = [] ∧
      (bufdup true a2 (some s) u).1 = some ⟨[], 0, 0, u, 1⟩) ∧
    0 ∈ (bufdup true true (some volAbc) 0).2 := by
  refine ⟨?_, ?_, by decide⟩
  · intro s u a2 hu h0
    have hs : ¬ s.size = 0 := by omega
    have key := Nat.div_add_mod (s.size + u - 1) u
    have hmod := Nat.mod_lt (s.size + u - 1) (Nat.pos_of_ne_zero hu)
    have hc : (s.size + u - 1) / u * u = u * ((s.size + u - 1) / u) :=
      Nat.mul_comm _ _
    refine ⟨?_, ?_, ?_⟩
    · cases a2 <;> simp [bufdup, hs]
    · cases a2 <;> simp [bufdup, hs] <;> exact hu
    · refine ⟨⟨s.data.take s.size ++
        List.replicate ((s.size + u - 1) / u * u - s.size) 0,
        s.size, (s.size + u - 1) / u * u, u, 1⟩, by simp [bufdup, hs], ?_, ?_, ?_⟩
      · exact Nat.mul_mod_left _ u
      · show s.size ≤ (s.size + u - 1) / u * u
        omega
      · show (s.size + u - 1) / u * u < s.size + u
        omega
  · intro s u a2 h0
    constructor <;> simp [bufdup, h0]

/-- Witness for bufdup_div_spec: duplicating the 3-byte volatile buffer with
unit 4 divides by 4 and allocates the least multiple of 4 covering 3. -/
theorem bufdup_div_spec_witness :
    (4 : Nat) ≠ 0 ∧ 0 < volAbc.size ∧
    ((bufdup true true (some volAbc) 4).2 = [4] ∧
      (∀ v ∈ (bufdup true true (some volAbc) 4).2, v ≠ 0) ∧
      ∃ d, (bufdup true true (some volAbc) 4).1 = some d ∧ d.asize % 4 = 0 ∧
        volAbc.size ≤ d.asize ∧ d.asize < volAbc.size + 4) :=
  ⟨by decide, by decide, bufdup_div_spec.1 volAbc 4 true (by decide) (by decide)⟩

/-- A middle slurp (0 < len < size) on a mutable buffer: size drops by len and
the logical contents lose their first len bytes. -/
theorem bufslurp_mid (b : Buf) (k : Nat) (hu : b.unit ≠ 0) (h1 : 0 < k)
    (h2 : k < b.size) (h3 : b.size ≤ b.data.length) :
    ∃ b1, bufslurp (some b) k = some b1 ∧ b1.unit = b.unit ∧
      b1.size = b.size - k ∧ b1.size ≤ b1.data.length ∧
      b1.data.take b1.size = (b.data.take b.size).drop k := by
  have hS : ((b.data.drop k).take (b.size - k)).length = b.size - k := by
    simp [List.length_take]
    omega
  refine ⟨{ b with size := b.size - k,
                   data := memwrite b.data 0
                     ((b.data.drop k).take (b.size - k)) }, ?_, rfl, rfl, ?_, ?_⟩
  · have hk0 : ¬ k = 0 := by omega
    have hsk : ¬ b.size ≤ k := by omega
    simp [bufslurp, hu, hk0, hsk]
  · show b.size - k ≤ (memwrite b.data 0 ((b.data.drop k).take (b.size - k))).length
    simp [memwrite, List.length_take]
    omega
  · show (memwrite b.data 0 ((b.data.drop k).take (b.size - k))).take (b.size - k) =
      (b.data.take b.size).drop k
    simp only [memwrite, List.take_zero, List.nil_append, Nat.zero_add]
    rw [List.take_append_eq_append_take, List.take_of_length_le (le_of_eq hS), hS]
    simp only [Nat.sub_self, List.take_zero, List.append_nil]
    rw [List.drop_take]

/-- C7: on a mutable buffer, two in-bounds remove_prefix operations compose
into a single one with the summed length, up to logical contents (size and the
first size bytes); and remove_prefix of the whole size clears the buffer. -/
theorem bufslurp_compose :
    (∀ (b : Buf) (k k2 : Nat), b.unit ≠ 0 → 0 < k → 0 < k2 → k + k2 ≤ b.size →
      b.size ≤ b.data.length →
      ∃ b12 bK, bufslurp (bufslurp (some b) k) k2 = some b12 ∧
        bufslurp (some b) (k + k2) = some bK ∧ b12.size = bK.size ∧
        b12.data.take b12.size = bK.data.take bK.size) ∧
    (∀ b : Buf, b.unit ≠ 0 →
      ∃ b0, bufslurp (some b) b.size = some b0 ∧ b0.size = 0) := by
  constructor
  · intro b k k2 hu hk hk2 hsum hlen
    obtain ⟨b1, hb1, hu1, hsz1, hlen1, hcont1⟩ :=
      bufslurp_mid b k hu hk (by omega) hlen
    rw [hb1]
    by_cases hend : k + k2 = b.size
    · -- the second slurp clears b1, the combined slurp clears b
      have h2a : b1.size ≤ k2 := by omega
      have hk20 : ¬ k2 = 0 := by omega
      have hu1' : ¬ b1.unit = 0 := by omega
      have hbig : b.size ≤ k + k2 := by omega
      have hko : ¬ (k + k2) = 0 := by omega
      refine ⟨{ b1 with size := 0 }, { b with size := 0 }, ?_, ?_, rfl, by simp⟩
      · simp [bufslurp, hu1', hk20, h2a]
      · simp [bufslurp, hu, hko, hbig]
    · have hmid : k + k2 < b.size := by omega
      obtain ⟨b12, hb12, hu12, hsz12, hlen12, hcont12⟩ :=
        bufslurp_mid b1 k2 (by omega) hk2 (by omega) hlen1
      obtain ⟨bK, hbK, huK, hszK, hlenK, hcontK⟩ :=
        bufslurp_mid b (k + k2) hu (by omega) hmid hlen
      refine ⟨b12, bK, hb12, hbK, by omega, ?_⟩
      rw [hcont12, hcontK, hcont1, List.drop_drop]
  · intro b hu
    by_cases h0 : b.size = 0
    · refine ⟨b, ?_, h0⟩
      simp [bufslurp, h0]
    · refine ⟨{ b with size := 0 }, ?_, rfl⟩
      simp [bufslurp, hu, h0, le_rfl]

/-- Witness for bufslurp_compose on a concrete 5-byte buffer with k = 2,
k2 = 2. -/
theorem bufslurp_compose_witness :
    fiveB.unit ≠ 0 ∧ 0 < 2 ∧ 2 + 2 ≤ fiveB.size ∧ fiveB.size ≤ fiveB.data.length ∧
    (∃ b12 bK, bufslurp (bufslurp (some fiveB) 2) 2 = some b12 ∧
      bufslurp (some fiveB) (2 + 2) = some bK ∧ b12.size = bK.size ∧
      b12.data.take b12.size = bK.data.take bK.size) :=
  ⟨by decide, by decide, by decide, by decide,
    bufslurp_compose.1 fiveB 2 2 (by decide) (by decide) (by decide) (by decide)
      (by decide)⟩

/-- Witness for buftoi_reads_spec: the unconditional read at the start offset
on a concrete one-byte buffer. -/
theorem buftoi_reads_spec_witness :
    oneDigit.size ≠ 0 ∧ 0 ∈ (buftoi (some oneDigit) 0).2 :=
  ⟨by decide, buftoi_reads_spec.1 oneDigit 0 (by decide)⟩

/-- The 32-bit wrap is idempotent. -/
theorem toSigned32_idem (x : Int) : toSigned32 (toSigned32 x) = toSigned32 x := by
  unfold toSigned32
  omega

/-- Wrapping the accumulator before the next step r * 10 + c does not change
the wrapped outcome. -/
theorem toSigned32_acc_congr (x y c : Int) (h : toSigned32 x = toSigned32 y) :
    toSigned32 (x * 10 + c) = toSigned32 (y * 10 + c) := by
  unfold toSigned32 at h ⊢
  omega

/-- Wrapping of a negation commutes with a previous wrap. -/
theorem toSigned32_neg_congr (v : Int) :
    toSigned32 (-toSigned32 v) = toSigned32 (-v) := by
  unfold toSigned32
  omega

/-- Folding the digit step over a list identifies accumulators wrapping to the
same value. -/
theorem foldl_accDigit_congr (l : List Nat) :
    ∀ x y : Int, toSigned32 x = toSigned32 y →
      toSigned32 (l.foldl accDigit x) = toSigned32 (l.foldl accDigit y) := by
  induction l with
  | nil =>
    intro x y h
    simpa using h
  | cons c l ih =>
    intro x y h
    simp only [List.foldl_cons]
    exact ih _ _ (toSigned32_acc_congr x y ((c : Int) - 48) h)

/-- Value and end index of the buftoi digit loop: with an accumulator already
in wrapped form, the loop computes the wrap of the decimal value of the
maximal digit run and stops just past it. -/
theorem buftoiLoop_value (data : List Nat) (size : Nat) :
    ∀ k i r, size - i ≤ k → toSigned32 r = r →
      (buftoiLoop data size i r).1 =
        (toSigned32 ((runList data size i).foldl accDigit r),
         i + (runList data size i).length) := by
  intro k
  induction k with
  | zero =>
    intro i r hk hr
    have hc : ¬ i < size := by omega
    rw [buftoiLoop, runList]
    simp [hc, hr]
  | succ k ih =>
    intro i r hk hr
    by_cases hc : i < size
    · by_cases hd : 48 ≤ readByte data i ∧ readByte data i ≤ 57
      · rw [buftoiLoop, runList]
        simp only [hc, hd, dif_pos, if_pos, and_self]
        rw [ih (i + 1) _ (by omega) (toSigned32_idem _)]
        refine Prod.ext ?_ ?_
        · show toSigned32 ((runList data size (i + 1)).foldl accDigit
            (toSigned32 (r * 10 + ((readByte data i : Int) - 48)))) =
            toSigned32 ((readByte data i :: runList data size (i + 1)).foldl
              accDigit r)
          rw [List.foldl_cons]
          exact foldl_accDigit_congr _ _ _ (toSigned32_idem _)
        · show (i + 1) + (runList data size (i + 1)).length =
            i + (readByte data i :: runList data size (i + 1)).length
          simp
          omega
      · rw [buftoiLoop, runList]
        simp [hc, hd, hr]
    · rw [buftoiLoop, runList]
      simp [hc, hr]

/-- The general buftoi formula: on a non-null non-empty buffer with the start
offset in bounds, buftoi returns the wrapped signed decimal value of an
optional sign followed by the maximal digit run, and the offset just past the
digits. -/
theorem buftoi_formula (b : Buf) (offI : Nat) (h0 : 0 < b.size) :
    (buftoi (some b) offI).1 =
      (toSigned32 ((if readByte b.data offI = 45 then -1 else 1) *
          runVal b.data b.size
            (if readByte b.data offI = 43 then offI + 1
             else if readByte b.data offI = 45 then offI + 1 else offI)),
       some ((if readByte b.data offI = 43 then offI + 1
              else if readByte b.data offI = 45 then offI + 1 else offI) +
         (runList b.data b.size
            (if readByte b.data offI = 43 then offI + 1
             else if readByte b.data offI = 45 then offI + 1 else offI)).length)) := by
  have hs : ¬ b.size = 0 := by omega
  have hz : toSigned32 0 = 0 := by decide
  by_cases h43 : readByte b.data offI = 43
  · have hval := buftoiLoop_value b.data b.size (b.size - (offI + 1))
      (offI + 1) 0 le_rfl hz
    simp [buftoi, hs, h43, hval, runVal]
  · by_cases h45 : readByte b.data offI = 45
    · have hval := buftoiLoop_value b.data b.size (b.size - (offI + 1))
        (offI + 1) 0 le_rfl hz
      simp [buftoi, hs, h43, h45, hval, runVal, neg_one_mul]
      exact toSigned32_neg_congr _
    · have hval := buftoiLoop_value b.data b.size (b.size - offI)
        offI 0 le_rfl hz
      simp [buftoi, hs, h43, h45, hval, runVal]

/-- C8: on a non-null non-empty buffer with the start offset in bounds, buftoi
returns the 32-bit-wrapped signed decimal value of an optional sign followed
by the maximal digit run from the start offset, and reports the offset just
past the consumed digits; on "-42abc" from 0 it returns -42 with end offset 3;
and it returns 0 on a null or empty buffer. -/
theorem buftoi_value_spec :
    (∀ (b : Buf) (offI : Nat), 0 < b.size → offI < b.size →
      (buftoi (some b) offI).1 =
        (toSigned32 ((if readByte b.data offI = 45 then -1 else 1) *
            runVal b.data b.size
              (if readByte b.data offI = 43 then offI + 1
               else if readByte b.data offI = 45 then offI + 1 else offI)),
         some ((if readByte b.data offI = 43 then offI + 1
                else if readByte b.data offI = 45 then offI + 1 else offI) +
           (runList b.data b.size
              (if readByte b.data offI = 43 then offI + 1
               else if readByte b.data offI = 45 then offI + 1 else offI)).length))) ∧
    (buftoi (some buf42) 0).1 = (-42, some 3) ∧
    (∀ off, (buftoi none off).1.1 = 0) ∧
    (∀ (b : Buf) (off : Nat), b.size = 0 → (buftoi (some b) off).1.1 = 0) := by
  refine ⟨fun b offI h1 _ => buftoi_formula b offI h1, ?_, ?_, ?_⟩
  · have hrl : runList buf42.data buf42.size 1 = [52, 50] := by
      simp [runList, readByte, buf42]
    rw [buftoi_formula buf42 0 (by decide)]
    simp only [show readByte buf42.data 0 = 45 by decide]
    norm_num [runVal, hrl, accDigit]
    decide
  · intro off
    simp [buftoi]
  · intro b off h
    simp [buftoi, h]

/-- Witness for buftoi_value_spec at the "-42abc" buffer from offset 0. -/
theorem buftoi_value_spec_witness :
    0 < buf42.size ∧ 0 < buf42.size ∧
    (buftoi (some buf42) 0).1 =
      (toSigned32 ((if readByte buf42.data 0 = 45 then -1 else 1) *
          runVal buf42.data buf42.size
            (if readByte buf42.data 0 = 43 then 0 + 1
             else if readByte buf42.data 0 = 45 then 0 + 1 else 0)),
       some ((if readByte buf42.data 0 = 43 then 0 + 1
              else if readByte buf42.data 0 = 45 then 0 + 1 else 0) +
         (runList buf42.data buf42.size
            (if readByte buf42.data 0 = 43 then 0 + 1
             else if readByte buf42.data 0 = 45 then 0 + 1 else 0)).length)) :=
  ⟨by decide, by decide, buftoi_value_spec.1 buf42 0 (by decide) (by decide)⟩

/-- On a NUL-free byte list, the embedded strlen is the list length. -/
theorem strlenL_eq (s : List Nat) (h : 0 ∉ s) : strlenL s = s.length := by
  induction s with
  | nil => rfl
  | cons c s' ih =>
    have hc : c ≠ 0 := fun hh => h (by simp [hh])
    have h' : 0 ∉ s' := fun hh => h (List.mem_cons_of_mem _ hh)
    simp [strlenL, List.takeWhile_cons, hc]
    simpa [strlenL] using ih h'

/-- The bufcmps return cascade is unchanged by removing one matched byte from
both sides. -/
theorem postCmp_succ (m l : Nat) (r : Int) :
    postCmp (m + 1) (l + 1) r = postCmp m l r := by
  unfold postCmp
  split_ifs <;> omega

/-- Sign analysis of the strncmp call of bufcmps: when the string is NUL-free
and no longer than the compared length, and the buffer byte list covers that
length, the cascade of bufcmps has the sign of the plain byte comparison. -/
theorem strncmp_sign :
    ∀ (s xs : List Nat) (n : Nat), 0 ∉ s → s.length ≤ n → n ≤ xs.length →
      Int.sign (postCmp n s.length (strncmpL xs (s ++ [0]) n)) =
        Int.sign (cmpBytes (xs.take n) s) := by
  intro s
  induction s with
  | nil =>
    intro xs n h0 hl hn
    cases n with
    | zero =>
      simp [strncmpL, postCmp, cmpBytes]
    | succ m =>
      cases xs with
      | nil => simp at hn
      | cons x xs' =>
        by_cases hx : x = 0
        · subst hx
          simp [strncmpL, postCmp, cmpBytes]
        · have hxi : ((x : Int) ≠ 0) := by exact_mod_cast hx
          have hxpos : (0 : Int) < (x : Int) := by
            exact_mod_cast Nat.pos_of_ne_zero hx
          simp [strncmpL, postCmp, cmpBytes, hx, hxi, Int.sign_eq_one_of_pos hxpos]
  | cons c s' ih =>
    intro xs n h0 hl hn
    have hc0 : c ≠ 0 := fun hh => h0 (by simp [hh])
    have h0' : 0 ∉ s' := fun hh => h0 (List.mem_cons_of_mem _ hh)
    cases n with
    | zero => simp at hl
    | succ m =>
      cases xs with
      | nil => simp at hn
      | cons x xs' =>
        have hm : s'.length ≤ m := by simpa using hl
        have hn' : m ≤ xs'.length := by simpa using hn
        by_cases hxc : x = c
        · subst hxc
          have hstep : strncmpL (x :: xs') ((x :: s') ++ [0]) (m + 1) =
              strncmpL xs' (s' ++ [0]) m := by
            simp [strncmpL, hc0]
          rw [hstep, List.length_cons, postCmp_succ, List.take_succ_cons]
          have hrhs : cmpBytes (x :: xs'.take m) (x :: s') =
              cmpBytes (xs'.take m) s' := by
            simp [cmpBytes]
          rw [hrhs]
          exact ih xs' m h0' hm hn'
        · have hxi : ((x : Int) ≠ (c : Int)) := by exact_mod_cast hxc
          have hsub : ((x : Int) - (c : Int) ≠ 0) := sub_ne_zero.mpr hxi
          have hstep : strncmpL (x :: xs') ((c :: s') ++ [0]) (m + 1) =
              (x : Int) - (c : Int) := by
            simp [strncmpL, hxc]
          rw [hstep, List.take_succ_cons]
          have hrhs : cmpBytes (x :: xs'.take m) (c :: s') =
              (x : Int) - (c : Int) := by
            simp [cmpBytes, hxc]
          rw [hrhs]
          unfold postCmp
          simp [hsub]

/-- C5 (amended): compare_to_string runs strncmp over max(size, strlen) bytes,
so its result can depend on buffer bytes past size (see the counterexample);
but whenever strlen(s) ≤ size, its sign is that of the plain byte comparison
of the logical contents with the string (shorter side less), and on contents
"abc" versus string "abd" the result is negative. -/
theorem bufcmps_sign_spec :
    (∀ (b : Buf) (s : List Nat), 0 < b.size → 0 ∉ s → s.length ≤ b.size →
      b.size ≤ b.data.length →
      Int.sign (bufcmps (some b) s) =
        Int.sign (cmpBytes (b.data.take b.size) s)) ∧
    bufcmps (some abcBuf) [97, 98, 100] < 0 := by
  constructor
  · intro b s h0 hz hsl hbl
    have hlen : strlenL s = s.length := strlenL_eq s hz
    have hcl : (if s.length < b.size then b.size else s.length) = b.size := by
      by_cases h : s.length < b.size
      · simp [h]
      · simp [h]
        omega
    simp only [bufcmps, if_neg (show ¬ b.size = 0 from by omega), hlen, hcl]
    exact strncmp_sign s b.data b.size hz hsl hbl
  · decide

/-- Witness for bufcmps_sign_spec at the "abc" buffer and the string "abd". -/
theorem bufcmps_sign_spec_witness :
    0 < abcBuf.size ∧ (0 : Nat) ∉ [97, 98, 100] ∧
    [97, 98, 100].length ≤ abcBuf.size ∧ abcBuf.size ≤ abcBuf.data.length ∧
    Int.sign (bufcmps (some abcBuf) [97, 98, 100]) =
      Int.sign (cmpBytes (abcBuf.data.take abcBuf.size) [97, 98, 100]) :=
  ⟨by decide, by decide, by decide, by decide,
    bufcmps_sign_spec.1 abcBuf [97, 98, 100] (by decide) (by decide) (by decide)
      (by decide)⟩

/-- C5, counterexample: two buffers with identical logical contents (same size,
same first size bytes) but different stale bytes past size compare differently
against the same 3-byte string, one negative and one positive; so bufcmps does
not compare over only min(size, strlen) bytes and does read past size. -/
theorem bufcmps_minmax_cex :
    staleC.size = staleZ.size ∧
    staleC.data.take staleC.size = staleZ.data.take staleZ.size ∧
    bufcmps (some staleC) [97, 98, 99] < 0 ∧
    0 < bufcmps (some staleZ) [97, 98, 99] := by
  decide
